import Mathlib

/-!
Shallow embedding of the stock-performance-analysis repository
(`src/utils/stock.py`, `src/utils/portfolio.py`, `src/utils/benchmark.py`,
`src/utils/metrics.py`) and proofs about it.

Modelling conventions:
* Prices and daily returns are exact rationals (`ℚ`); CAGR and standard
  deviation, which involve real roots (`pow(x, 1/n)`, `sqrt`), live in `ℝ`.
* A pandas `Series` indexed by dates is a `List (PDate × ℚ)`; a pandas
  `DataFrame` produced by `pd.concat(..., axis=1)` is a `DFrame`
  (an index plus one `Option ℚ`-column per constituent; `none` models `NaN`).
* Python methods that can raise are embedded with an `Except String` channel;
  the raise sites are exactly those of the source (`iloc` on an empty frame,
  the explicit `raise` statements in `PortfolioFactory.create_portfolio`).
* The memoization dictionary `self.performace` of `Performance` is modelled
  as one `Option` field per metric name; getters pass the state explicitly.
-/

namespace StockPerf

/-- A calendar date: the year (what `pd.to_datetime(..).dt.year` extracts)
plus an ordinal that orders dates within a year. -/
structure PDate where
  year : Nat
  sub : Nat
deriving DecidableEq, Repr

/-- Date order used by `df.sort_values(by="Date")`. -/
def pdateLE (a b : PDate) : Prop :=
  a.year < b.year ∨ (a.year = b.year ∧ a.sub ≤ b.sub)

instance : DecidableRel pdateLE := fun a b => by
  unfold pdateLE; infer_instance

/-- One row of the price table: the `Date`, `Open` and `Close` columns. -/
structure PriceRow where
  Date : PDate
  Open : ℚ
  Close : ℚ
deriving DecidableEq, Repr

/-- The sort `df.sort_values(by="Date")` performed by `Stock.__init__`. -/
def sortByDate (df : List PriceRow) : List PriceRow :=
  List.insertionSort (fun a b => pdateLE a.Date b.Date) df

/-- A `Stock`: a name together with its (sorted) price table. -/
structure Stock where
  name : String
  df : List PriceRow
deriving DecidableEq, Repr

/-- Embeds `Stock.__init__`: stores the name and the price table sorted by date. -/
def Stock.init (name : String) (df : List PriceRow) : Stock :=
  ⟨name, sortByDate df⟩

/-- Embeds `Stock.get_daily_return`: for each row, `(Close-Open)/Open*100`,
as a series indexed by the stored dates. -/
def Stock.get_daily_return (s : Stock) : List (PDate × ℚ) :=
  s.df.map (fun r => (r.Date, (r.Close - r.Open) / r.Open * 100))

/-- Embeds `len(pd.to_datetime(df["Date"]).dt.year.unique())`: the number of distinct
calendar years appearing among the rows' dates. -/
def totalYear (df : List PriceRow) : Nat :=
  ((df.map (fun r => r.Date.year)).dedup).length

/-- Embeds `Stock.get_cagr`: `pow(Close.iloc[-1]/Open.iloc[0], 1/total_year) - 1`.
`iloc` on an empty frame raises `IndexError`; otherwise the function returns
normally (there is no division-by-zero guard in the source). -/
noncomputable def Stock.get_cagr (s : Stock) : Except String ℝ :=
  match s.df with
  | [] => .error "IndexError"
  | r :: rs =>
    let initial_value := r.Open
    let final_value := (rs.getLastD r).Close
    .ok (((final_value : ℝ) / (initial_value : ℝ)) ^ ((1 : ℝ) / (totalYear (r :: rs) : ℝ)) - 1)

/-- Sample variance with `ddof = 1` (what `Series.var()` / the inner part of
`Series.std()` compute over the non-null entries). -/
def sampleVar (xs : List ℚ) : ℚ :=
  ((xs.map (fun x => (x - xs.sum / xs.length) ^ 2)).sum) / ((xs.length : ℚ) - 1)

/-- Sample covariance with `ddof = 1` (what `Series.cov` computes over the
pairs in which both series are non-null). -/
def sampleCov (ps : List (ℚ × ℚ)) : ℚ :=
  ((ps.map (fun p => (p.1 - (ps.map Prod.fst).sum / ps.length)
      * (p.2 - (ps.map Prod.snd).sum / ps.length))).sum) / ((ps.length : ℚ) - 1)

/-- Embeds `Series.std()`: square root of the sample variance of the values. -/
noncomputable def stdOfValues (xs : List ℚ) : ℝ :=
  Real.sqrt ((sampleVar xs : ℚ) : ℝ)

/-- Embeds `Stock.get_std`: standard deviation of the daily-return series. -/
noncomputable def Stock.get_std (s : Stock) : ℝ :=
  stdOfValues (s.get_daily_return.map Prod.snd)

/-- Index lookup in a date-keyed series (pandas label alignment):
the value at label `d`, or `none` when the label is absent. -/
def lookupD (xs : List (PDate × ℚ)) (d : PDate) : Option ℚ :=
  (xs.find? (fun x => x.1 = d)).map Prod.snd

/-- The index produced by pandas alignment of several date-keyed series:
the sorted union (without duplicates) of their date labels. -/
def unionDates (ls : List (List PDate)) : List PDate :=
  List.insertionSort pdateLE (ls.flatten.dedup)

/-- The `IComponent` capability interface (`icomponent.py`): the view of an
entity through its three methods `get_daily_return`, `get_cagr`, `get_std`.
`Stock` and `PortFolio` both coerce into it. -/
structure IComp where
  get_daily_return : List (PDate × ℚ)
  get_cagr : Except String ℝ
  get_std : ℝ

noncomputable instance : Inhabited IComp := ⟨⟨[], .error "IndexError", 0⟩⟩

/-- A `Stock` seen through the `IComponent` interface. -/
noncomputable def Stock.toIComp (s : Stock) : IComp :=
  ⟨s.get_daily_return, s.get_cagr, s.get_std⟩

/-- A `PortFolio`: a list of constituents (through the `IComponent` interface)
and the parallel list of weights.  `PortFolio.__init__` stores both without
any validation. -/
structure PortFolio where
  stocks : List IComp
  weights : List ℚ

/-- Embeds `PortFolio.get_daily_return`:
`pd.concat(stock_returns_lst, axis=1).mul(self.weights).sum(axis=1)`.
Concatenation aligns the constituent series on the (sorted, deduplicated)
union of their dates, leaving `NaN` (here `none`) where a constituent has no
observation; `.mul` scales column `i` by `weights[i]` (`NaN` stays `NaN`);
`.sum(axis=1)` adds each row, skipping `NaN` entries. -/
def PortFolio.get_daily_return (p : PortFolio) : List (PDate × ℚ) :=
  let stock_returns_lst := p.stocks.map (fun s => s.get_daily_return)
  let idx := unionDates (stock_returns_lst.map (fun s => s.map Prod.fst))
  idx.map (fun d =>
    (d, (List.zipWith (fun s w => ((lookupD s d).map (· * w)).getD 0)
          stock_returns_lst p.weights).sum))

/-- Embeds `PortFolio.get_cagr`: `np.sum(np.array([c.get_cagr() ...]) * np.array(weights))`.
An exception from a constituent's `get_cagr` propagates. -/
noncomputable def PortFolio.get_cagr (p : PortFolio) : Except String ℝ := do
  let stock_returns_lst ← p.stocks.mapM (fun s => s.get_cagr)
  return (List.zipWith (fun c w => c * ((w : ℚ) : ℝ)) stock_returns_lst p.weights).sum

/-- Embeds `PortFolio.get_std`: standard deviation of the blended daily-return series. -/
noncomputable def PortFolio.get_std (p : PortFolio) : ℝ :=
  stdOfValues (p.get_daily_return.map Prod.snd)

/-- A `PortFolio` seen through the `IComponent` interface. -/
noncomputable def PortFolio.toIComp (p : PortFolio) : IComp :=
  ⟨p.get_daily_return, p.get_cagr, p.get_std⟩

/-- A `Benchmark`: an unweighted list of constituents. -/
structure Benchmark where
  stocks : List IComp

/-- The result of `pd.concat(series, axis=1)`: a common index and one
column per series, with `none` where a series has no observation. -/
structure DFrame where
  index : List PDate
  cols : List (List (Option ℚ))

/-- Embeds `Benchmark.get_daily_return`: the constituents' daily-return series
concatenated column-wise into one DataFrame. -/
def Benchmark.get_daily_return (b : Benchmark) : DFrame :=
  let stock_returns_lst := b.stocks.map (fun s => s.get_daily_return)
  let idx := unionDates (stock_returns_lst.map (fun s => s.map Prod.fst))
  ⟨idx, stock_returns_lst.map (fun s => idx.map (fun d => lookupD s d))⟩

/-- Embeds `Benchmark.get_cagr`: `np.array([stock.get_cagr() for stock in stocks])`;
an exception from any constituent propagates. -/
noncomputable def Benchmark.get_cagr (b : Benchmark) : Except String (List ℝ) :=
  b.stocks.mapM (fun s => s.get_cagr)

/-- Embeds `Benchmark.get_std`: `np.array([stock.get_std() for stock in stocks])`. -/
noncomputable def Benchmark.get_std (b : Benchmark) : List ℝ :=
  b.stocks.map (fun s => s.get_std)

/-- Embeds `benchmark_return[col].cov(stock_return)`: pandas aligns the column
(indexed by the frame's index, `none` at missing dates) with the stock's
series and computes the sample covariance over the pairs in which both are
non-null. -/
def colCov (idx : List PDate) (col : List (Option ℚ)) (sr : List (PDate × ℚ)) : ℚ :=
  sampleCov ((idx.zip col).filterMap
    (fun dc => dc.2.bind (fun c => (lookupD sr dc.1).map (fun s => (c, s)))))

/-- Embeds `benchmark_return.var()` for one column: sample variance over the
column's non-null entries. -/
def colVar (col : List (Option ℚ)) : ℚ :=
  sampleVar (col.filterMap id)

/-- Embeds `stock_return.sub(benchmark_return[col]).std()`: the subtraction aligns
the two series (non-null exactly where both are defined), and `std` is taken
over the non-null differences. -/
noncomputable def colTrackStd (idx : List PDate) (col : List (Option ℚ))
    (sr : List (PDate × ℚ)) : ℝ :=
  stdOfValues ((idx.zip col).filterMap
    (fun dc => dc.2.bind (fun c => (lookupD sr dc.1).map (fun s => s - c))))

/-- The `Performance` report: the evaluated entity, the benchmark, and the
`self.performace` memoization dictionary (one `Option` field per metric name). -/
structure Performance where
  stocks : IComp
  benchmarks : Benchmark
  perfBeta : Option (List ℚ)
  perfAlpha : Option (List ℝ)
  perfReturn : Option (List ℝ)
  perfTracking : Option (List ℝ)
  perfTreynor : Option (List ℝ)
  perfSharpe : Option ℝ

/-- Embeds `Performance.__init__`: stores the two entities; `self.performace = {}`. -/
def Performance.init (stocks : IComp) (benchmarks : Benchmark) : Performance :=
  ⟨stocks, benchmarks, none, none, none, none, none, none⟩

/-- The computation performed by `Performance.get_beta` on a cache miss:
per benchmark column, covariance with the stock's returns divided by the
column's variance. -/
def betaCompute (p : Performance) : List ℚ × Performance :=
  let benchmark_return := p.benchmarks.get_daily_return
  let stock_return := p.stocks.get_daily_return
  let coveriance := benchmark_return.cols.map
    (fun col => colCov benchmark_return.index col stock_return)
  let variance := benchmark_return.cols.map colVar
  let v := List.zipWith (· / ·) coveriance variance
  (v, { p with perfBeta := some v })

/-- Embeds `Performance.get_beta`: returns the cached vector if present, otherwise
computes it and stores it under the key `"beta"`. -/
def Performance.get_beta (p : Performance) : List ℚ × Performance :=
  match p.perfBeta with
  | some v => (v, p)
  | none => betaCompute p

/-- The computation performed by `Performance.get_alpha` on a cache miss:
`stock_cagr - risk_free_return - beta[idx] * benchmark_cagr[idx]` per
constituent (after transparently forcing `get_beta`). -/
noncomputable def alphaCompute (risk_free_return : ℝ) (p : Performance) :
    Except String (List ℝ × Performance) := do
  let benchmark_return ← p.benchmarks.get_cagr
  let stock_return ← p.stocks.get_cagr
  let bp := p.get_beta
  let v := List.zipWith
    (fun b bc => stock_return - risk_free_return - ((b : ℚ) : ℝ) * bc)
    bp.1 benchmark_return
  return (v, { bp.2 with perfAlpha := some v })

/-- Embeds `Performance.get_alpha`, with the `"alpha"` memoization. -/
noncomputable def Performance.get_alpha (risk_free_return : ℝ) (p : Performance) :
    Except String (List ℝ × Performance) :=
  match p.perfAlpha with
  | some v => .ok (v, p)
  | none => alphaCompute risk_free_return p

/-- The computation performed by `Performance.get_return` on a cache miss:
`stock_cagr / benchmark_cagr` (scalar over vector, element-wise). -/
noncomputable def returnCompute (p : Performance) :
    Except String (List ℝ × Performance) := do
  let benchmark_return ← p.benchmarks.get_cagr
  let stock_return ← p.stocks.get_cagr
  let v := benchmark_return.map (fun c => stock_return / c)
  return (v, { p with perfReturn := some v })

/-- Embeds `Performance.get_return`, with the `"return"` memoization. -/
noncomputable def Performance.get_return (p : Performance) :
    Except String (List ℝ × Performance) :=
  match p.perfReturn with
  | some v => .ok (v, p)
  | none => returnCompute p

/-- The computation performed by `Performance.get_tracking_error` on a cache
miss: per column, `stock_return.sub(benchmark_return[col]).std()`. -/
noncomputable def trackingCompute (p : Performance) : List ℝ × Performance :=
  let benchmark_return := p.benchmarks.get_daily_return
  let stock_return := p.stocks.get_daily_return
  let v := benchmark_return.cols.map
    (fun col => colTrackStd benchmark_return.index col stock_return)
  (v, { p with perfTracking := some v })

/-- Embeds `Performance.get_tracking_error`, with the `"tracking_error"` memoization. -/
noncomputable def Performance.get_tracking_error (p : Performance) :
    List ℝ × Performance :=
  match p.perfTracking with
  | some v => (v, p)
  | none => trackingCompute p

/-- The computation performed by `Performance.get_treynor_ratio` on a cache
miss: `(stock_cagr - risk_free_return) / beta` element-wise. -/
noncomputable def treynorCompute (risk_free_return : ℝ) (p : Performance) :
    Except String (List ℝ × Performance) := do
  let stock_return ← p.stocks.get_cagr
  let bp := p.get_beta
  let v := bp.1.map (fun b => (stock_return - risk_free_return) / ((b : ℚ) : ℝ))
  return (v, { bp.2 with perfTreynor := some v })

/-- Embeds `Performance.get_treynor_ratio`, with the `"treynor_ratio"` memoization. -/
noncomputable def Performance.get_treynor_ratio (risk_free_return : ℝ)
    (p : Performance) : Except String (List ℝ × Performance) :=
  match p.perfTreynor with
  | some v => .ok (v, p)
  | none => treynorCompute risk_free_return p

/-- The computation performed by `Performance.get_sharpe_ratio` on a cache
miss: `(stock_cagr - risk_free_return) / stock_std` (a scalar; it reads only
the evaluated entity). -/
noncomputable def sharpeCompute (risk_free_return : ℝ) (p : Performance) :
    Except String (ℝ × Performance) := do
  let stock_std := p.stocks.get_std
  let stock_cagr ← p.stocks.get_cagr
  let v := (stock_cagr - risk_free_return) / stock_std
  return (v, { p with perfSharpe := some v })

/-- Embeds `Performance.get_sharpe_ratio`, with the `"sharpe_ratio"` memoization. -/
noncomputable def Performance.get_sharpe_ratio (risk_free_return : ℝ)
    (p : Performance) : Except String (ℝ × Performance) :=
  match p.perfSharpe with
  | some v => .ok (v, p)
  | none => sharpeCompute risk_free_return p

/-- Embeds `PortfolioFactory.create_portfolio`, abstracted over the stock-building
collaborator (`StockFactory.create_stock`, an I/O operation): validates that
the lengths match and that the weights sum exactly to `1`, then builds the
`PortFolio` without further checks. -/
noncomputable def create_portfolio (create_stock : String → Stock)
    (stocks : List String) (weights : List ℚ) : Except String PortFolio :=
  if stocks.length ≠ weights.length then
    .error "Please provide weight for all stocks"
  else if weights.sum ≠ 1 then
    .error "Sum of all weight should be 1"
  else
    .ok ⟨(stocks.map create_stock).map Stock.toIComp, weights⟩

/-- The date-aligned overlap between a benchmark constituent's return series
`c` and the evaluated entity's return series `e`: for each date of `c` that
also appears in `e`, the pair (constituent value, entity value). -/
def overlapPairs (c e : List (PDate × ℚ)) : List (ℚ × ℚ) :=
  c.filterMap (fun dv => (lookupD e dv.1).map (fun s => (dv.2, s)))

/-- The per-constituent beta formula exactly as the specification words it
(for comparison with the code): covariance over the date-aligned overlap
divided by the variance over that same overlap. -/
def beta_spec (c e : List (PDate × ℚ)) : ℚ :=
  sampleCov (overlapPairs c e) / sampleVar ((overlapPairs c e).map Prod.fst)

/-- States that `p`'s cached metric values all survive, unchanged, into `q`. -/
def cachePreserved (p q : Performance) : Prop :=
  (∀ v, p.perfBeta = some v → q.perfBeta = some v) ∧
  (∀ v, p.perfAlpha = some v → q.perfAlpha = some v) ∧
  (∀ v, p.perfReturn = some v → q.perfReturn = some v) ∧
  (∀ v, p.perfTracking = some v → q.perfTracking = some v) ∧
  (∀ v, p.perfTreynor = some v → q.perfTreynor = some v) ∧
  (∀ v, p.perfSharpe = some v → q.perfSharpe = some v)

instance : Inhabited PriceRow := ⟨⟨⟨0, 0⟩, 0, 0⟩⟩

/- Concrete fixtures used by the closed instances below. -/

/-- Three consecutive trading dates in one year. -/
def dA : PDate := ⟨2020, 1⟩

def dB : PDate := ⟨2020, 2⟩

def dC : PDate := ⟨2020, 3⟩

/-- An evaluated entity whose daily returns are `0` and `2` on `dA`, `dB`. -/
noncomputable def icompE : IComp :=
  ⟨[(dA, 0), (dB, 2)], .error "IndexError", 0⟩

/-- A benchmark constituent observed on one extra date `dC`: returns
`0, 2, 10`.  Its overlap with `icompE` is `dA, dB`. -/
noncomputable def icompC : IComp :=
  ⟨[(dA, 0), (dB, 2), (dC, 10)], .error "IndexError", 0⟩

/-- An entity with constant daily returns (so its covariance with any series
is `0`, giving beta `0`). -/
noncomputable def icompFlat : IComp :=
  ⟨[(dA, 5), (dB, 5)], .ok 0, 0⟩

/-- One price row whose opening price is zero (`CAGR` division by zero). -/
def rowZeroOpen : PriceRow := ⟨⟨2021, 1⟩, 0, 121⟩

/-- One price row with equal open and close (`CAGR` exactly `0`). -/
def rowFlat : PriceRow := ⟨⟨2021, 1⟩, 100, 100⟩

/-- One price row with a 10% gain over a single year. -/
def rowUp10 : PriceRow := ⟨⟨2021, 1⟩, 100, 110⟩

/-- A `Performance` report whose six metric caches are all populated. -/
noncomputable def perfFull : Performance :=
  ⟨⟨[], .error "IndexError", 0⟩, ⟨[]⟩, some [], some [], some [], some [],
    some [], some 0⟩

/-- The single-year three-stock portfolio of the spec's basket example:
constituent CAGRs `0.1, 0.2, 0.3`, weights `0.3, 0.3, 0.4`. -/
noncomputable def pBasket : PortFolio :=
  ⟨[(Stock.init "A" [⟨⟨2020, 1⟩, 100, 110⟩]).toIComp,
    (Stock.init "B" [⟨⟨2020, 1⟩, 100, 120⟩]).toIComp,
    (Stock.init "C" [⟨⟨2020, 1⟩, 100, 130⟩]).toIComp],
   [3/10, 3/10, 4/10]⟩

/-- A stock-building collaborator that needs no market data. -/
def emptyFactory : String → Stock := fun n => Stock.init n []

/-! ### Basic lemmas about series lookup and alignment -/

lemma lookupD_eq_none {xs : List (PDate × ℚ)} {d : PDate} :
    lookupD xs d = none ↔ d ∉ xs.map Prod.fst := by
  unfold lookupD
  rw [Option.map_eq_none', List.find?_eq_none]
  constructor
  · intro h hmem
    obtain ⟨⟨e, w⟩, hdv, hfst⟩ := List.mem_map.mp hmem
    exact h _ hdv (by simpa using hfst)
  · intro h x hx
    simp only [decide_eq_true_eq]
    intro hfst
    exact h (List.mem_map.mpr ⟨x, hx, hfst⟩)

lemma lookupD_eq_some {xs : List (PDate × ℚ)} {d : PDate} {v : ℚ} :
    lookupD xs d = some v → (d, v) ∈ xs := by
  unfold lookupD
  intro h
  rw [Option.map_eq_some'] at h
  obtain ⟨x, hx, hv⟩ := h
  have hmem := List.mem_of_find?_eq_some hx
  have hfst : x.1 = d := by simpa using List.find?_some hx
  cases x
  simp only at hfst hv
  subst hfst hv
  exact hmem

lemma lookupD_self {c : List (PDate × ℚ)} (hc : (c.map Prod.fst).Nodup)
    {dv : PDate × ℚ} (hmem : dv ∈ c) : lookupD c dv.1 = some dv.2 := by
  unfold lookupD
  have hsome : (c.find? (fun x => x.1 = dv.1)).isSome := by
    rw [List.find?_isSome]
    exact ⟨dv, hmem, by simp⟩
  obtain ⟨x, hx⟩ := Option.isSome_iff_exists.mp hsome
  have hxmem := List.mem_of_find?_eq_some hx
  have hxfst : x.1 = dv.1 := by simpa using List.find?_some hx
  have hxdv : x = dv := List.inj_on_of_nodup_map hc hxmem hmem hxfst
  subst hxdv
  rw [hx]
  rfl

lemma find?_eraseP {α : Type} (p q : α → Bool) (l : List α)
    (h : ∀ a, q a = true → p a = false) :
    (l.eraseP p).find? q = l.find? q := by
  induction l with
  | nil => rfl
  | cons b t ih =>
    rw [List.eraseP_cons]
    cases hpb : p b
    · rw [cond_false, List.find?_cons, List.find?_cons]
      cases hqb : q b
      · simpa using ih
      · simp
    · rw [cond_true, List.find?_cons]
      have hqb : q b = false := by
        cases hq : q b
        · rfl
        · exact absurd (h b hq) (by simp [hpb])
      simp [hqb]

lemma lookupD_eraseP {c : List (PDate × ℚ)} {d e : PDate}
    (hne : e ≠ d) :
    lookupD (c.eraseP (fun x => x.1 = d)) e = lookupD c e := by
  unfold lookupD
  rw [find?_eraseP]
  intro a ha
  have : a.1 = e := by simpa using ha
  simp [this, hne]

lemma perm_cons_eraseP {c : List (PDate × ℚ)} {d : PDate} {v : ℚ}
    (h : lookupD c d = some v) :
    c.Perm ((d, v) :: c.eraseP (fun x => x.1 = d)) := by
  induction c with
  | nil => simp [lookupD] at h
  | cons b t ih =>
    by_cases hb : b.1 = d
    · have hbv : b = (d, v) := by
        have : lookupD (b :: t) d = some b.2 := by
          simp [lookupD, List.find?_cons, hb]
        rw [this] at h
        obtain ⟨rfl⟩ := Option.some_inj.mp h
        exact Prod.ext hb rfl
      subst hbv
      rw [List.eraseP_cons]
      simp
    · have ht : lookupD t d = some v := by
        simpa [lookupD, List.find?_cons, hb] using h
      rw [List.eraseP_cons]
      have hbd : (decide (b.1 = d)) = false := by simp [hb]
      rw [hbd, cond_false]
      exact ((ih ht).cons b).trans (List.Perm.swap _ _ _)

/-- Aligning a series `c` against a duplicate-free index that contains all
of `c`'s dates visits each of `c`'s entries exactly once: filtering the
index through `lookupD c` is, up to permutation, filtering `c` itself. -/
lemma filterMap_lookupD_perm {β : Type} (f : PDate → ℚ → Option β) :
    ∀ (idx : List PDate) (c : List (PDate × ℚ)), idx.Nodup →
      (c.map Prod.fst).Nodup → (∀ d ∈ c.map Prod.fst, d ∈ idx) →
      (idx.filterMap (fun d => (lookupD c d).bind (fun v => f d v))).Perm
        (c.filterMap (fun dv => f dv.1 dv.2)) := by
  intro idx
  induction idx with
  | nil =>
    intro c _ _ hsub
    have hc : c = [] := by
      cases c with
      | nil => rfl
      | cons dv t => exact absurd (hsub dv.1 (by simp)) (by simp)
    subst hc; simp
  | cons d idx ih =>
    intro c hidx hc hsub
    have hd : d ∉ idx := (List.nodup_cons.mp hidx).1
    have hidx' : idx.Nodup := (List.nodup_cons.mp hidx).2
    cases hl : lookupD c d with
    | none =>
      have hdc : d ∉ c.map Prod.fst := lookupD_eq_none.mp hl
      have hsub' : ∀ e ∈ c.map Prod.fst, e ∈ idx := by
        intro e he
        rcases List.mem_cons.mp (hsub e he) with h | h
        · exact absurd (h ▸ he) hdc
        · exact h
      rw [List.filterMap_cons]
      simp only [hl, Option.none_bind]
      exact ih c hidx' hc hsub'
    | some v =>
      set c' := c.eraseP (fun x => x.1 = d) with hcpd
      have hmem : (d, v) ∈ c := lookupD_eq_some hl
      have hcnd : c.Nodup := List.Nodup.of_map _ hc
      have hperm : c.Perm ((d, v) :: c') := perm_cons_eraseP hl
      have hcps : c'.Sublist c := List.eraseP_sublist _
      have hcpn : (c'.map Prod.fst).Nodup := (hcps.map _).nodup hc
      have hdnotc' : d ∉ c'.map Prod.fst := by
        intro hmem'
        have : ((d, v) :: c').map Prod.fst |>.Nodup := by
          have := hperm.map Prod.fst |>.nodup hc
          exact this
        simp only [List.map_cons, List.nodup_cons] at this
        exact this.1 hmem'
      have hsub' : ∀ e ∈ c'.map Prod.fst, e ∈ idx := by
        intro e he
        have hec : e ∈ c.map Prod.fst := (hcps.map _).subset he
        rcases List.mem_cons.mp (hsub e hec) with h | h
        · exact absurd (h ▸ he) hdnotc'
        · exact h
      have hlook : ∀ e ∈ idx,
          (lookupD c e).bind (fun w => f e w)
            = (lookupD c' e).bind (fun w => f e w) := by
        intro e he
        have hne : e ≠ d := fun h => hd (h ▸ he)
        rw [hcpd, lookupD_eraseP hne]
      have htail :
          (idx.filterMap (fun e => (lookupD c e).bind (fun w => f e w))).Perm
            (c'.filterMap (fun dv => f dv.1 dv.2)) := by
        rw [List.filterMap_congr hlook]
        exact ih c' hidx' hcpn hsub'
      have hrhs : (c.filterMap (fun dv => f dv.1 dv.2)).Perm
          (((d, v) :: c').filterMap (fun dv => f dv.1 dv.2)) :=
        hperm.filterMap _
      rw [List.filterMap_cons] at hrhs
      rw [List.filterMap_cons]
      simp only [hl, Option.some_bind]
      cases hf : f d v with
      | none =>
        simp only [hf] at hrhs ⊢
        exact htail.trans hrhs.symm
      | some b =>
        simp only [hf] at hrhs ⊢
        exact (htail.cons b).trans hrhs.symm

/-! ### Statistics lemmas -/

lemma sampleVar_perm {xs ys : List ℚ} (h : xs.Perm ys) :
    sampleVar xs = sampleVar ys := by
  unfold sampleVar
  rw [h.length_eq, h.sum_eq, (h.map _).sum_eq]

lemma sampleCov_perm {ps qs : List (ℚ × ℚ)} (h : ps.Perm qs) :
    sampleCov ps = sampleCov qs := by
  unfold sampleCov
  rw [h.length_eq, (h.map Prod.fst).sum_eq, (h.map Prod.snd).sum_eq,
    (h.map _).sum_eq]

/-- The sample covariance of a series with itself is its sample variance. -/
lemma sampleCov_diag (xs : List ℚ) :
    sampleCov (xs.map (fun v => (v, v))) = sampleVar xs := by
  unfold sampleCov sampleVar
  have h1 : List.map (Prod.fst ∘ fun v : ℚ => (v, v)) xs = xs := by
    simp [Function.comp_def]
  have h2 : List.map (Prod.snd ∘ fun v : ℚ => (v, v)) xs = xs := by
    simp [Function.comp_def]
  simp only [List.map_map, List.length_map, h1, h2]
  congr 1
  apply congrArg List.sum
  apply List.map_congr_left
  intro a _
  simp only [Function.comp_apply]
  ring

/-- A series containing a value different from its first value has nonzero
sample variance. -/
lemma sampleVar_ne_zero {xs : List ℚ} (h : ∃ x ∈ xs, x ≠ xs.headD 0) :
    sampleVar xs ≠ 0 := by
  obtain ⟨x, hx, hne⟩ := h
  cases xs with
  | nil => cases hx
  | cons y t =>
    simp only [List.headD_cons] at hne
    have hxt : x ∈ t := by
      rcases List.mem_cons.mp hx with h | h
      · exact absurd h hne
      · exact h
    have hlen : 2 ≤ (y :: t).length := by
      cases t with
      | nil => cases hxt
      | cons a u => simp
    set xs := y :: t with hxs
    set m : ℚ := xs.sum / xs.length with hm
    have hnonneg : ∀ z ∈ xs.map (fun w => (w - m) ^ 2), 0 ≤ z := by
      intro z hz
      obtain ⟨w, _, rfl⟩ := List.mem_map.mp hz
      positivity
    have hsumnn : 0 ≤ (xs.map (fun w => (w - m) ^ 2)).sum :=
      List.sum_nonneg hnonneg
    have hsumne : (xs.map (fun w => (w - m) ^ 2)).sum ≠ 0 := by
      intro hzero
      have hall : ∀ z ∈ xs, z = m := by
        intro z hz
        have hmem : (z - m) ^ 2 ∈ xs.map (fun w => (w - m) ^ 2) :=
          List.mem_map.mpr ⟨z, hz, rfl⟩
        have hle := List.single_le_sum hnonneg _ hmem
        rw [hzero] at hle
        have : (z - m) ^ 2 = 0 := le_antisymm hle (by positivity)
        have := pow_eq_zero_iff (n := 2) (by norm_num) |>.mp this
        linarith [this]
      have hy : y = m := hall y (by simp [hxs])
      have hxm : x = m := hall x hx
      exact hne (hxm.trans hy.symm)
    have hden : ((xs.length : ℚ) - 1) ≠ 0 := by
      have : (2 : ℚ) ≤ (xs.length : ℚ) := by exact_mod_cast hlen
      linarith
    unfold sampleVar
    exact div_ne_zero hsumne hden

/-! ### Lemmas about the aligned benchmark frame -/

lemma unionDates_nodup (ls : List (List PDate)) : (unionDates ls).Nodup :=
  (List.perm_insertionSort _ _).symm.nodup (List.nodup_dedup _)

lemma mem_unionDates {ls : List (List PDate)} {d : PDate} :
    d ∈ unionDates ls ↔ ∃ l ∈ ls, d ∈ l := by
  unfold unionDates
  rw [(List.perm_insertionSort _ _).mem_iff, List.mem_dedup, List.mem_flatten]

lemma zip_map_self {α β : Type} (h : α → β) (l : List α) :
    l.zip (l.map h) = l.map (fun a => (a, h a)) := by
  induction l with
  | nil => rfl
  | cons a t ih => simp [ih]

/-- Covariance of an aligned benchmark column with the stock's series is the
covariance over the date-aligned overlap of the raw series. -/
lemma colCov_aligned {idx : List PDate} {c sr : List (PDate × ℚ)}
    (hidx : idx.Nodup) (hc : (c.map Prod.fst).Nodup)
    (hsub : ∀ d ∈ c.map Prod.fst, d ∈ idx) :
    colCov idx (idx.map (fun d => lookupD c d)) sr
      = sampleCov (overlapPairs c sr) := by
  unfold colCov
  rw [zip_map_self]
  rw [List.filterMap_map]
  apply sampleCov_perm
  exact filterMap_lookupD_perm
    (fun d v => (lookupD sr d).map (fun s => (v, s))) idx c hidx hc hsub

/-- Variance of an aligned benchmark column is the variance of the raw
constituent series' values (its own full history, not the overlap). -/
lemma colVar_aligned {idx : List PDate} {c : List (PDate × ℚ)}
    (hidx : idx.Nodup) (hc : (c.map Prod.fst).Nodup)
    (hsub : ∀ d ∈ c.map Prod.fst, d ∈ idx) :
    colVar (idx.map (fun d => lookupD c d)) = sampleVar (c.map Prod.snd) := by
  unfold colVar
  rw [List.filterMap_map]
  apply sampleVar_perm
  have hperm := filterMap_lookupD_perm (fun _ v => some v) idx c hidx hc hsub
  have hl : (idx.filterMap (fun d => (lookupD c d).bind (fun v => some v)))
      = idx.filterMap (id ∘ lookupD c) := by
    apply List.filterMap_congr
    intro d _
    simp
  rw [hl] at hperm
  refine hperm.trans ?_
  have hmapeq : c.filterMap (fun dv => some dv.2) = c.map Prod.snd :=
    congrFun (List.filterMap_eq_map Prod.snd) c
  rw [hmapeq]

/-- If two raw series are literally equal, the overlap pairs are the
diagonal pairs of the series' values. -/
lemma overlapPairs_self {c : List (PDate × ℚ)}
    (hc : (c.map Prod.fst).Nodup) :
    overlapPairs c c = (c.map Prod.snd).map (fun v => (v, v)) := by
  unfold overlapPairs
  have h : ∀ dv ∈ c, (lookupD c dv.1).map (fun s => (dv.2, s))
      = some (dv.2, dv.2) := by
    intro dv hdv
    rw [lookupD_self hc hdv]
    rfl
  rw [List.filterMap_congr h]
  rw [List.map_map]
  exact congrFun (List.filterMap_eq_map (fun dv : PDate × ℚ => (dv.2, dv.2))) c

/-! ### Claim theorems -/

/-- C1 (amended): `get_beta()` returns a vector of length `k`; its `j`-th
entry is the covariance of constituent `j`'s returns with the evaluated
entity's returns over their date-aligned overlap, divided by the variance of
constituent `j`'s returns over the constituent's **full** series (not the
overlap); and if the evaluated entity's returns equal the constituent's
returns exactly (and they are not all identical, so the variance is nonzero)
the beta is `1`. -/
theorem get_beta_formula (E : IComp) (B : Benchmark) (j : ℕ)
    (hj : j < B.stocks.length)
    (hnd : (((B.stocks.getD j default).get_daily_return).map Prod.fst).Nodup) :
    ((Performance.init E B).get_beta.1).length = B.stocks.length ∧
    ((Performance.init E B).get_beta.1).getD j 0
      = sampleCov (overlapPairs ((B.stocks.getD j default).get_daily_return)
          E.get_daily_return)
        / sampleVar (((B.stocks.getD j default).get_daily_return).map Prod.snd) ∧
    ((B.stocks.getD j default).get_daily_return = E.get_daily_return →
      (∃ x ∈ ((B.stocks.getD j default).get_daily_return).map Prod.snd,
        x ≠ (((B.stocks.getD j default).get_daily_return).map Prod.snd).headD 0) →
      ((Performance.init E B).get_beta.1).getD j 0 = 1) := by
  have hgetd : B.stocks.getD j default = B.stocks[j] :=
    List.getD_eq_getElem _ _ hj
  set series := B.stocks.map (fun s => s.get_daily_return) with hseries
  set idx := unionDates (series.map (fun s => s.map Prod.fst)) with hidxdef
  set cols := series.map (fun s => idx.map (fun d => lookupD s d)) with hcols
  have hval : (Performance.init E B).get_beta.1
      = List.zipWith (· / ·)
          (cols.map (fun col => colCov idx col E.get_daily_return))
          (cols.map colVar) := rfl
  have hlencols : cols.length = B.stocks.length := by
    simp [hcols, hseries]
  have hlen : ((Performance.init E B).get_beta.1).length = B.stocks.length := by
    rw [hval]
    simp [List.length_zipWith, hlencols]
  have hjv : j < ((Performance.init E B).get_beta.1).length := by
    rw [hlen]; exact hj
  have hidx : idx.Nodup := unionDates_nodup _
  have hc : ((B.stocks[j].get_daily_return).map Prod.fst).Nodup := by
    rw [← hgetd]; exact hnd
  have hsub : ∀ d ∈ (B.stocks[j].get_daily_return).map Prod.fst, d ∈ idx := by
    intro d hd
    rw [hidxdef]
    apply mem_unionDates.mpr
    refine ⟨(B.stocks[j].get_daily_return).map Prod.fst, ?_, hd⟩
    apply List.mem_map.mpr
    refine ⟨B.stocks[j].get_daily_return, ?_, rfl⟩
    rw [hseries]
    exact List.mem_map.mpr ⟨B.stocks[j], List.getElem_mem hj, rfl⟩
  have hentry : ((Performance.init E B).get_beta.1).getD j 0
      = sampleCov (overlapPairs (B.stocks[j].get_daily_return)
          E.get_daily_return)
        / sampleVar ((B.stocks[j].get_daily_return).map Prod.snd) := by
    have hjz : j < (List.zipWith (· / ·)
        (cols.map (fun col => colCov idx col E.get_daily_return))
        (cols.map colVar)).length := by
      rw [← hval]; exact hjv
    rw [hval, List.getD_eq_getElem _ _ hjz]
    rw [List.getElem_zipWith (h := hjz), List.getElem_map, List.getElem_map]
    simp only [hcols, hseries, List.getElem_map]
    rw [colCov_aligned hidx hc hsub, colVar_aligned hidx hc hsub]
  refine ⟨hlen, by rw [hgetd]; exact hentry, ?_⟩
  intro heq hex
  rw [hgetd] at heq hex
  rw [hentry, ← heq]
  rw [overlapPairs_self hc, sampleCov_diag]
  exact div_self (sampleVar_ne_zero hex)

/-- Witness for C1's theorem: a benchmark with one constituent whose return
series is literally the evaluated entity's series (returns `0` and `2`);
beta has length `1` and value `1`. -/
theorem get_beta_formula_witness :
    ((Performance.init icompE (Benchmark.mk [icompE])).get_beta.1).length = 1 ∧
    ((Performance.init icompE (Benchmark.mk [icompE])).get_beta.1).getD 0 0 = 1 :=
  ⟨(get_beta_formula icompE (Benchmark.mk [icompE]) 0 (by decide)
      (by simp [icompE, dA, dB])).1,
   (get_beta_formula icompE (Benchmark.mk [icompE]) 0 (by decide)
      (by simp [icompE, dA, dB])).2.2 rfl
      ⟨2, by simp [icompE], by simp [icompE]⟩⟩

/-- Counterexample to C1 as stated: with an evaluated entity observed on two
dates (returns `0, 2`) and a benchmark constituent observed on three
(returns `0, 2, 10`), the code's beta `cov(overlap)/var(full series) = 1/14`
differs from the spec's `cov(overlap)/var(overlap) = 1`. -/
theorem get_beta_formula_cex :
    (Performance.init icompE (Benchmark.mk [icompC])).get_beta.1
      ≠ [beta_spec icompC.get_daily_return icompE.get_daily_return] := by
  have hcode : (Performance.init icompE (Benchmark.mk [icompC])).get_beta.1
      = [1/14] := by
    simp [Performance.get_beta, Performance.init, betaCompute,
      Benchmark.get_daily_return, icompE, icompC, unionDates,
      List.insertionSort, List.orderedInsert, pdateLE, colCov, colVar,
      sampleCov, sampleVar, lookupD, List.find?, dA, dB, dC]
    norm_num
  have hspec : beta_spec icompC.get_daily_return icompE.get_daily_return
      = 1 := by
    simp [beta_spec, overlapPairs, icompC, icompE, lookupD, List.find?,
      dA, dB, dC, sampleCov, sampleVar]
    norm_num
  rw [hcode, hspec]
  simp only [ne_eq, List.cons.injEq, and_true]
  norm_num

/-- C4: the Sharpe ratio depends only on the evaluated entity and the
risk-free rate: reports built from the same entity but different benchmarks
return the same value, namely `(E.cagr() - r) / E.volatility()`. -/
theorem sharpe_ratio_benchmark_invariant (E : IComp) (b1 b2 : Benchmark)
    (r : ℝ) :
    (Performance.get_sharpe_ratio r (Performance.init E b1)).map Prod.fst
      = (Performance.get_sharpe_ratio r (Performance.init E b2)).map Prod.fst ∧
    (Performance.get_sharpe_ratio r (Performance.init E b1)).map Prod.fst
      = E.get_cagr.map (fun c => (c - r) / E.get_std) := by
  have h : ∀ b : Benchmark,
      (Performance.get_sharpe_ratio r (Performance.init E b)).map Prod.fst
        = E.get_cagr.map (fun c => (c - r) / E.get_std) := by
    intro b
    unfold Performance.get_sharpe_ratio Performance.init sharpeCompute
    cases hc : E.get_cagr <;> simp [hc, Except.map]
  exact ⟨(h b1).trans (h b2).symm, h b1⟩

/-- C5: `cagr()` equals `(close[last]/open[first])^(1/total_distinct_years) - 1`
over the sorted series, where `total_distinct_years` counts the distinct
calendar years among the dates; a single-year series going from open `100`
to close `121` has CAGR exactly `0.21`. -/
theorem stock_cagr_formula (name : String) (df : List PriceRow)
    (h : df ≠ []) :
    (Stock.init name df).get_cagr
      = .ok ((((((sortByDate df).getLastD default).Close : ℚ) : ℝ)
          / ((((sortByDate df).headD default).Open : ℚ) : ℝ))
            ^ ((1 : ℝ) / (totalYear (sortByDate df) : ℝ)) - 1) ∧
    (Stock.init "S" [⟨⟨2020, 1⟩, 100, 121⟩]).get_cagr = .ok (21/100) := by
  constructor
  · cases hs : sortByDate df with
    | nil =>
      exfalso
      apply h
      have hlen := congrArg List.length hs
      rw [sortByDate, List.length_insertionSort] at hlen
      exact List.length_eq_zero.mp hlen
    | cons r rs =>
      have : (Stock.init name df).df = r :: rs := by
        rw [Stock.init]
        exact hs
      unfold Stock.get_cagr
      rw [Stock.init] at this ⊢
      simp only [this, hs, List.getLastD_cons, List.headD_cons]
  · unfold Stock.init sortByDate Stock.get_cagr totalYear
    simp [List.insertionSort]
    norm_num [Real.rpow_one]

/-- Witness for C5's theorem at a concrete two-row, one-year series. -/
theorem stock_cagr_formula_witness :
    (Stock.init "W" [⟨⟨2020, 1⟩, 40, 44⟩, ⟨⟨2020, 2⟩, 50, 55⟩]).get_cagr
      = .ok ((((((sortByDate [⟨⟨2020, 1⟩, 40, 44⟩, ⟨⟨2020, 2⟩, 50, 55⟩]).getLastD
            default).Close : ℚ) : ℝ)
          / ((((sortByDate [⟨⟨2020, 1⟩, 40, 44⟩, ⟨⟨2020, 2⟩, 50, 55⟩]).headD
            default).Open : ℚ) : ℝ))
            ^ ((1 : ℝ) / (totalYear (sortByDate
              [⟨⟨2020, 1⟩, 40, 44⟩, ⟨⟨2020, 2⟩, 50, 55⟩]) : ℝ)) - 1) :=
  (stock_cagr_formula "W" [⟨⟨2020, 1⟩, 40, 44⟩, ⟨⟨2020, 2⟩, 50, 55⟩]
    (by simp)).1

/-- C6: `daily_return()` has exactly one entry per price row, the entry for
row `i` of the stored (sorted) series being
`(close[i]-open[i])/open[i] * 100` indexed by that row's date. -/
theorem stock_daily_return_rows (name : String) (df : List PriceRow)
    (h : df ≠ []) :
    (Stock.init name df).get_daily_return
      = (sortByDate df).map
          (fun r => (r.Date, (r.Close - r.Open) / r.Open * 100)) ∧
    ((Stock.init name df).get_daily_return).length = df.length := by
  refine ⟨rfl, ?_⟩
  unfold Stock.get_daily_return Stock.init sortByDate
  simp

/-- Witness for C6's theorem at a concrete two-row series. -/
theorem stock_daily_return_rows_witness :
    (Stock.init "W" [⟨⟨2020, 1⟩, 100, 102⟩, ⟨⟨2020, 2⟩, 50, 51⟩]).get_daily_return
      = (sortByDate [⟨⟨2020, 1⟩, 100, 102⟩, ⟨⟨2020, 2⟩, 50, 51⟩]).map
          (fun r => (r.Date, (r.Close - r.Open) / r.Open * 100)) ∧
    ((Stock.init "W" [⟨⟨2020, 1⟩, 100, 102⟩, ⟨⟨2020, 2⟩, 50, 51⟩]).get_daily_return).length
      = 2 :=
  stock_daily_return_rows "W" [⟨⟨2020, 1⟩, 100, 102⟩, ⟨⟨2020, 2⟩, 50, 51⟩]
    (by simp)

/-- C7: a portfolio's CAGR is the weighted sum `Σ weight_i * cagr_i` of its
constituents' CAGRs; with constituent CAGRs `0.1, 0.2, 0.3` and weights
`0.3, 0.3, 0.4` it equals `0.21`. -/
theorem portfolio_cagr_weighted_sum :
    (∀ (stocks : List IComp) (weights : List ℚ),
      PortFolio.get_cagr ⟨stocks, weights⟩
        = (stocks.mapM (fun s : IComp => s.get_cagr)).map
            (fun vs => (List.zipWith (fun c w => c * ((w : ℚ) : ℝ))
              vs weights).sum)) ∧
    pBasket.get_cagr = .ok (21/100) := by
  constructor
  · intro stocks weights
    unfold PortFolio.get_cagr
    cases h : stocks.mapM (fun s : IComp => s.get_cagr) with
    | error e => simp [h, Except.map, Except.bind]
    | ok vs => simp [h, Except.map, Except.bind]
  · unfold pBasket PortFolio.get_cagr
    unfold Stock.toIComp Stock.init sortByDate Stock.get_cagr totalYear
    simp [List.insertionSort, List.mapM, List.mapM.loop, Bind.bind,
      Except.bind, Except.map, pure, Except.pure]
    norm_num [Real.rpow_one]

/-- C8: the portfolio factory fails with the length-mismatch error when
`len(constituents) != len(weights)`, with the weight-sum error when
`sum(weights) != 1` (exact equality), and succeeds otherwise; the
`PortFolio` constructor itself stores its arguments unvalidated. -/
theorem create_portfolio_validation :
    (∀ (create_stock : String → Stock) (stocks : List String)
        (weights : List ℚ),
      (create_portfolio create_stock stocks weights).isOk = true
        ↔ (stocks.length = weights.length ∧ weights.sum = 1)) ∧
    create_portfolio emptyFactory ["A", "B", "C"] [1/2, 1/2]
      = .error "Please provide weight for all stocks" ∧
    create_portfolio emptyFactory ["A", "B", "C"] [3/10, 3/10, 3/10]
      = .error "Sum of all weight should be 1" ∧
    (∀ (stocks : List IComp) (weights : List ℚ),
      (PortFolio.mk stocks weights).stocks = stocks
        ∧ (PortFolio.mk stocks weights).weights = weights) := by
  refine ⟨?_, ?_, ?_, fun s w => ⟨rfl, rfl⟩⟩
  · intro f ss ws
    unfold create_portfolio
    split_ifs with h1 h2
    · simp [Except.isOk, Except.toBool, h1]
    · simp [Except.isOk, Except.toBool, h2]
    · simp only [Except.isOk, Except.toBool, true_iff]
      exact ⟨by simpa using h1, by simpa using h2⟩
  · unfold create_portfolio
    norm_num
  · unfold create_portfolio
    norm_num

/-- C10: a portfolio's daily return is outer-join aligned with missing
values contributing `0`: its dates are exactly the union of the
constituents' dates, and the value on each date is the sum of
`weight_i * return_i` over precisely the constituents observed on that
date. -/
theorem portfolio_daily_return_outer_join (stocks : List IComp)
    (weights : List ℚ) :
    PortFolio.get_daily_return ⟨stocks, weights⟩
      = (unionDates ((stocks.map (fun s => s.get_daily_return)).map
          (fun s => s.map Prod.fst))).map
          (fun d => (d, (List.zipWith
            (fun s w => if d ∈ s.map Prod.fst
              then ((lookupD s d).getD 0) * w else 0)
            (stocks.map (fun s => s.get_daily_return)) weights).sum)) ∧
    ∀ d : PDate,
      d ∈ (PortFolio.get_daily_return ⟨stocks, weights⟩).map Prod.fst
        ↔ ∃ c ∈ stocks, d ∈ c.get_daily_return.map Prod.fst := by
  constructor
  · unfold PortFolio.get_daily_return
    apply List.map_congr_left
    intro d _
    congr 1
    have hfg : (fun (s : List (PDate × ℚ)) (w : ℚ) =>
        ((lookupD s d).map (· * w)).getD 0)
        = (fun s w => if d ∈ s.map Prod.fst
            then ((lookupD s d).getD 0) * w else 0) := by
      funext s w
      cases hl : lookupD s d with
      | none =>
        rw [if_neg (lookupD_eq_none.mp hl)]
        simp [hl]
      | some v =>
        have hmem : d ∈ s.map Prod.fst :=
          List.mem_map.mpr ⟨(d, v), lookupD_eq_some hl, rfl⟩
        rw [if_pos hmem]
        simp [hl]
    rw [hfg]
  · intro d
    unfold PortFolio.get_daily_return
    rw [List.map_map]
    simp only [Function.comp_def]
    rw [List.map_id']
    rw [mem_unionDates]
    simp

/-! ### Memoization lemmas -/

lemma cachePreserved_refl (p : Performance) : cachePreserved p p :=
  ⟨fun _ h => h, fun _ h => h, fun _ h => h, fun _ h => h, fun _ h => h,
   fun _ h => h⟩

lemma get_beta_of_cached {p : Performance} {v : List ℚ}
    (h : p.perfBeta = some v) : p.get_beta = (v, p) := by
  simp [Performance.get_beta, h]

lemma get_beta_state (p : Performance) :
    (p.get_beta).2.perfBeta = some (p.get_beta).1 ∧
    (p.get_beta).2.perfAlpha = p.perfAlpha ∧
    (p.get_beta).2.perfReturn = p.perfReturn ∧
    (p.get_beta).2.perfTracking = p.perfTracking ∧
    (p.get_beta).2.perfTreynor = p.perfTreynor ∧
    (p.get_beta).2.perfSharpe = p.perfSharpe := by
  cases hp : p.perfBeta <;>
    simp [Performance.get_beta, hp, betaCompute]

lemma cachePreserved_get_beta (p : Performance) :
    cachePreserved p (p.get_beta).2 := by
  obtain ⟨h1, h2, h3, h4, h5, h6⟩ := get_beta_state p
  refine ⟨?_, ?_, ?_, ?_, ?_, ?_⟩ <;> intro v hv
  · rw [get_beta_of_cached hv]; exact hv
  · rw [h2]; exact hv
  · rw [h3]; exact hv
  · rw [h4]; exact hv
  · rw [h5]; exact hv
  · rw [h6]; exact hv

lemma get_tracking_of_cached {p : Performance} {v : List ℝ}
    (h : p.perfTracking = some v) : p.get_tracking_error = (v, p) := by
  simp [Performance.get_tracking_error, h]

lemma get_tracking_state (p : Performance) :
    (p.get_tracking_error).2.perfTracking = some (p.get_tracking_error).1 ∧
    (p.get_tracking_error).2.perfBeta = p.perfBeta ∧
    (p.get_tracking_error).2.perfAlpha = p.perfAlpha ∧
    (p.get_tracking_error).2.perfReturn = p.perfReturn ∧
    (p.get_tracking_error).2.perfTreynor = p.perfTreynor ∧
    (p.get_tracking_error).2.perfSharpe = p.perfSharpe := by
  cases hp : p.perfTracking <;>
    simp [Performance.get_tracking_error, hp, trackingCompute]

lemma cachePreserved_get_tracking (p : Performance) :
    cachePreserved p (p.get_tracking_error).2 := by
  obtain ⟨h1, h2, h3, h4, h5, h6⟩ := get_tracking_state p
  refine ⟨?_, ?_, ?_, ?_, ?_, ?_⟩ <;> intro v hv
  · rw [h2]; exact hv
  · rw [h3]; exact hv
  · rw [h4]; exact hv
  · rw [get_tracking_of_cached hv]; exact hv
  · rw [h5]; exact hv
  · rw [h6]; exact hv

lemma get_alpha_of_cached {r : ℝ} {p : Performance} {v : List ℝ}
    (h : p.perfAlpha = some v) : Performance.get_alpha r p = .ok (v, p) := by
  simp [Performance.get_alpha, h]

lemma get_alpha_ok {r : ℝ} {p : Performance} {a : List ℝ × Performance}
    (h : Performance.get_alpha r p = .ok a) :
    a.2.perfAlpha = some a.1 ∧ cachePreserved p a.2 := by
  cases hp : p.perfAlpha with
  | some v =>
    rw [get_alpha_of_cached hp] at h
    have ha : a = (v, p) := by
      cases h; rfl
    subst ha
    exact ⟨hp, cachePreserved_refl p⟩
  | none =>
    rw [Performance.get_alpha, hp] at h
    rw [alphaCompute] at h
    cases hbc : p.benchmarks.get_cagr with
    | error e => simp [hbc, Bind.bind, Except.bind, Functor.map, Except.map] at h
    | ok bc =>
      cases hsc : p.stocks.get_cagr with
      | error e => simp [hbc, hsc, Bind.bind, Except.bind, Functor.map, Except.map] at h
      | ok sc =>
        simp only [hbc, hsc, bind, Except.bind, Functor.map, Except.map,
          pure, Except.pure, Except.ok.injEq] at h
        subst h
        obtain ⟨g1, g2, g3, g4, g5, g6⟩ := get_beta_state p
        refine ⟨rfl, ?_, ?_, ?_, ?_, ?_, ?_⟩ <;> intro w hw
        · simp only
          rw [get_beta_of_cached hw]
          exact hw
        · rw [hp] at hw; cases hw
        · simpa using g3 ▸ hw
        · simpa using g4 ▸ hw
        · simpa using g5 ▸ hw
        · simpa using g6 ▸ hw

lemma get_return_of_cached {p : Performance} {v : List ℝ}
    (h : p.perfReturn = some v) : Performance.get_return p = .ok (v, p) := by
  simp [Performance.get_return, h]

lemma get_return_ok {p : Performance} {a : List ℝ × Performance}
    (h : Performance.get_return p = .ok a) :
    a.2.perfReturn = some a.1 ∧ cachePreserved p a.2 := by
  cases hp : p.perfReturn with
  | some v =>
    rw [get_return_of_cached hp] at h
    have ha : a = (v, p) := by cases h; rfl
    subst ha
    exact ⟨hp, cachePreserved_refl p⟩
  | none =>
    rw [Performance.get_return, hp] at h
    rw [returnCompute] at h
    cases hbc : p.benchmarks.get_cagr with
    | error e => simp [hbc, Bind.bind, Except.bind, Functor.map, Except.map] at h
    | ok bc =>
      cases hsc : p.stocks.get_cagr with
      | error e => simp [hbc, hsc, Bind.bind, Except.bind, Functor.map, Except.map] at h
      | ok sc =>
        simp only [hbc, hsc, bind, Except.bind, Functor.map, Except.map,
          pure, Except.pure, Except.ok.injEq] at h
        subst h
        refine ⟨rfl, ?_, ?_, ?_, ?_, ?_, ?_⟩ <;> intro w hw
        · exact hw
        · exact hw
        · rw [hp] at hw; cases hw
        · exact hw
        · exact hw
        · exact hw

lemma get_treynor_of_cached {r : ℝ} {p : Performance} {v : List ℝ}
    (h : p.perfTreynor = some v) :
    Performance.get_treynor_ratio r p = .ok (v, p) := by
  simp [Performance.get_treynor_ratio, h]

lemma get_treynor_ok {r : ℝ} {p : Performance} {a : List ℝ × Performance}
    (h : Performance.get_treynor_ratio r p = .ok a) :
    a.2.perfTreynor = some a.1 ∧ cachePreserved p a.2 := by
  cases hp : p.perfTreynor with
  | some v =>
    rw [get_treynor_of_cached hp] at h
    have ha : a = (v, p) := by cases h; rfl
    subst ha
    exact ⟨hp, cachePreserved_refl p⟩
  | none =>
    rw [Performance.get_treynor_ratio, hp] at h
    rw [treynorCompute] at h
    cases hsc : p.stocks.get_cagr with
    | error e => simp [hsc, Bind.bind, Except.bind, Functor.map, Except.map] at h
    | ok sc =>
      simp only [hsc, bind, Except.bind, Functor.map, Except.map,
        pure, Except.pure, Except.ok.injEq] at h
      subst h
      obtain ⟨g1, g2, g3, g4, g5, g6⟩ := get_beta_state p
      refine ⟨rfl, ?_, ?_, ?_, ?_, ?_, ?_⟩ <;> intro w hw
      · simp only
        rw [get_beta_of_cached hw]
        exact hw
      · simpa using g2 ▸ hw
      · simpa using g3 ▸ hw
      · simpa using g4 ▸ hw
      · rw [hp] at hw; cases hw
      · simpa using g6 ▸ hw

lemma get_sharpe_of_cached {r : ℝ} {p : Performance} {v : ℝ}
    (h : p.perfSharpe = some v) :
    Performance.get_sharpe_ratio r p = .ok (v, p) := by
  simp [Performance.get_sharpe_ratio, h]

lemma get_sharpe_ok {r : ℝ} {p : Performance} {a : ℝ × Performance}
    (h : Performance.get_sharpe_ratio r p = .ok a) :
    a.2.perfSharpe = some a.1 ∧ cachePreserved p a.2 := by
  cases hp : p.perfSharpe with
  | some v =>
    rw [get_sharpe_of_cached hp] at h
    have ha : a = (v, p) := by cases h; rfl
    subst ha
    exact ⟨hp, cachePreserved_refl p⟩
  | none =>
    rw [Performance.get_sharpe_ratio, hp] at h
    rw [sharpeCompute] at h
    cases hsc : p.stocks.get_cagr with
    | error e => simp [hsc, Bind.bind, Except.bind, Functor.map, Except.map] at h
    | ok sc =>
      simp only [hsc, bind, Except.bind, Functor.map, Except.map,
        pure, Except.pure, Except.ok.injEq] at h
      subst h
      refine ⟨rfl, ?_, ?_, ?_, ?_, ?_, ?_⟩ <;> intro w hw
      · exact hw
      · exact hw
      · exact hw
      · exact hw
      · exact hw
      · rw [hp] at hw; cases hw

/-- C2: each metric is computed at most once per report.  For every getter:
the first (computing) call stores the result under the metric's key, a
repeated call — with any risk-free rate — returns exactly the cached value
and leaves the state untouched (the cache-hit branch, no recomputation), and
no getter ever invalidates a previously cached value. -/
theorem performance_metrics_memoized (p : Performance) (r r' : ℝ) :
    ((p.get_beta).2.perfBeta = some (p.get_beta).1
      ∧ Performance.get_beta (p.get_beta).2 = p.get_beta
      ∧ cachePreserved p (p.get_beta).2)
    ∧ ((p.get_tracking_error).2.perfTracking = some (p.get_tracking_error).1
      ∧ Performance.get_tracking_error (p.get_tracking_error).2
          = p.get_tracking_error
      ∧ cachePreserved p (p.get_tracking_error).2)
    ∧ (∀ a, Performance.get_alpha r p = .ok a →
        a.2.perfAlpha = some a.1
        ∧ Performance.get_alpha r' a.2 = .ok (a.1, a.2)
        ∧ cachePreserved p a.2)
    ∧ (∀ a, Performance.get_return p = .ok a →
        a.2.perfReturn = some a.1
        ∧ Performance.get_return a.2 = .ok (a.1, a.2)
        ∧ cachePreserved p a.2)
    ∧ (∀ a, Performance.get_treynor_ratio r p = .ok a →
        a.2.perfTreynor = some a.1
        ∧ Performance.get_treynor_ratio r' a.2 = .ok (a.1, a.2)
        ∧ cachePreserved p a.2)
    ∧ (∀ a, Performance.get_sharpe_ratio r p = .ok a →
        a.2.perfSharpe = some a.1
        ∧ Performance.get_sharpe_ratio r' a.2 = .ok (a.1, a.2)
        ∧ cachePreserved p a.2) := by
  refine ⟨⟨(get_beta_state p).1, ?_, cachePreserved_get_beta p⟩,
    ⟨(get_tracking_state p).1, ?_, cachePreserved_get_tracking p⟩,
    fun a h => ?_, fun a h => ?_, fun a h => ?_, fun a h => ?_⟩
  · rw [get_beta_of_cached (get_beta_state p).1]
  · rw [get_tracking_of_cached (get_tracking_state p).1]
  · obtain ⟨h1, h2⟩ := get_alpha_ok h
    exact ⟨h1, get_alpha_of_cached h1, h2⟩
  · obtain ⟨h1, h2⟩ := get_return_ok h
    exact ⟨h1, get_return_of_cached h1, h2⟩
  · obtain ⟨h1, h2⟩ := get_treynor_ok h
    exact ⟨h1, get_treynor_of_cached h1, h2⟩
  · obtain ⟨h1, h2⟩ := get_sharpe_ok h
    exact ⟨h1, get_sharpe_of_cached h1, h2⟩

/-- Witness for C2's theorem: on a report whose caches are populated, a call
returns the cached value with the state unchanged, and every cached value is
preserved. -/
theorem performance_metrics_memoized_witness :
    Performance.get_alpha 1 perfFull = .ok ([], perfFull)
      ∧ cachePreserved perfFull perfFull :=
  ⟨((performance_metrics_memoized perfFull 0 1).2.2.1 ([], perfFull) rfl).2.1,
   ((performance_metrics_memoized perfFull 0 1).2.2.1 ([], perfFull) rfl).2.2⟩

/-- C9: the `risk_free_return` argument only matters on the first call: once
`get_alpha`, `get_treynor_ratio` or `get_sharpe_ratio` has been called with
rate `r1`, calling it again with any rate `r2` returns exactly the result of
the `r1` call (value and state), ignoring `r2`. -/
theorem risk_free_rate_used_once (p : Performance) (r1 r2 : ℝ) :
    (Performance.get_alpha r1 p).bind
        (fun a => Performance.get_alpha r2 a.2)
      = Performance.get_alpha r1 p
    ∧ (Performance.get_treynor_ratio r1 p).bind
        (fun a => Performance.get_treynor_ratio r2 a.2)
      = Performance.get_treynor_ratio r1 p
    ∧ (Performance.get_sharpe_ratio r1 p).bind
        (fun a => Performance.get_sharpe_ratio r2 a.2)
      = Performance.get_sharpe_ratio r1 p := by
  refine ⟨?_, ?_, ?_⟩
  · cases h : Performance.get_alpha r1 p with
    | error e => rfl
    | ok a =>
      show Performance.get_alpha r2 a.2 = Except.ok a
      rw [get_alpha_of_cached (get_alpha_ok h).1]
  · cases h : Performance.get_treynor_ratio r1 p with
    | error e => rfl
    | ok a =>
      show Performance.get_treynor_ratio r2 a.2 = Except.ok a
      rw [get_treynor_of_cached (get_treynor_ok h).1]
  · cases h : Performance.get_sharpe_ratio r1 p with
    | error e => rfl
    | ok a =>
      show Performance.get_sharpe_ratio r2 a.2 = Except.ok a
      rw [get_sharpe_of_cached (get_sharpe_ok h).1]

/-- Counterexample to C3 as stated: `get_cagr` on a series whose first
opening price is `0` does not raise any condition — it returns normally
(the unguarded division propagates into the result). -/
theorem degenerate_division_cex :
    (Stock.get_cagr (Stock.init "D" [rowZeroOpen])).isOk = true := by
  rfl

/-- C3 (amended): none of the three degenerate divisions is raised as a
distinguishable condition.  `get_cagr` with `open[first] = 0`, `get_return`
with a benchmark constituent whose CAGR is exactly `0`, and
`get_treynor_ratio` with a beta entry equal to `0` all return normally,
performing the unguarded division (which the floating-point implementation
propagates as infinity/NaN). -/
theorem degenerate_division_returns_normally :
    ((Stock.init "D" [rowZeroOpen]).df.headD default).Open = 0
    ∧ (Stock.get_cagr (Stock.init "D" [rowZeroOpen])).isOk = true
    ∧ Benchmark.get_cagr (Benchmark.mk [(Stock.init "Z" [rowFlat]).toIComp])
        = .ok [0]
    ∧ (Performance.get_return (Performance.init
        (Stock.init "E" [rowUp10]).toIComp
        (Benchmark.mk [(Stock.init "Z" [rowFlat]).toIComp]))).isOk = true
    ∧ (Performance.init icompFlat (Benchmark.mk [icompC])).get_beta.1 = [0]
    ∧ (Performance.get_treynor_ratio 0 (Performance.init icompFlat
        (Benchmark.mk [icompC]))).isOk = true := by
  refine ⟨rfl, rfl, ?_, rfl, ?_, rfl⟩
  · unfold Benchmark.get_cagr Stock.toIComp Stock.init sortByDate
      Stock.get_cagr totalYear
    simp [List.insertionSort, List.mapM, List.mapM.loop, Bind.bind,
      Except.bind, pure, Except.pure, rowFlat]
  · simp [Performance.get_beta, Performance.init, betaCompute,
      Benchmark.get_daily_return, icompFlat, icompC, unionDates,
      List.insertionSort, List.orderedInsert, pdateLE, colCov, colVar,
      sampleCov, sampleVar, lookupD, List.find?, dA, dB, dC]

end StockPerf
